import Mathlib

/-!
Verification of the clusterfuck compiler pipeline (extended variant of
src/parser/parser.go): lexer with run-length merging, recursive-descent
parser with nesting and structured errors, and code generation.

The embedding follows the Go source closely.  Machine behaviour that the
Go runtime would surface as a crash (index out of range, failed interface
conversion) is modelled by an explicit panic outcome of the parser.
-/

set_option maxRecDepth 4000

namespace Clusterfuck

/-- AST/token node kinds of the extended variant.  Mirrors the concrete Go
structs: BaseNode spans are the first two Nat fields (start, end), counted
nodes carry a BaseCountable count, PreambleNode carries the UseIO/UseFmt
flags, LoopNode/FunctionNode own child lists. -/
inductive Node where
  | preamble (s e : Nat) (useIo useFmt : Bool)
  | postamble (s e : Nat)
  | inc (s e count : Nat)
  | dec (s e count : Nat)
  | prev (s e count : Nat)
  | next (s e count : Nat)
  | output (s e : Nat)
  | input (s e : Nat)
  | loopOpen (s e : Nat)
  | loopClose (s e : Nat)
  | funcOpen (s e : Nat)
  | funcClose (s e : Nat)
  | funcExec (s e : Nat)
  | loop (s e : Nat) (children : List Node)
  | funcDef (s e : Nat) (children : List Node)

/-- Node.Pos(): position of the first character of the node. -/
def Node.pos : Node → Nat
  | .preamble s _ _ _ => s
  | .postamble s _ => s
  | .inc s _ _ => s
  | .dec s _ _ => s
  | .prev s _ _ => s
  | .next s _ _ => s
  | .output s _ => s
  | .input s _ => s
  | .loopOpen s _ => s
  | .loopClose s _ => s
  | .funcOpen s _ => s
  | .funcClose s _ => s
  | .funcExec s _ => s
  | .loop s _ _ => s
  | .funcDef s _ _ => s

/-- Node.End(): position of the character after the node. -/
def Node.endPos : Node → Nat
  | .preamble _ e _ _ => e
  | .postamble _ e => e
  | .inc _ e _ => e
  | .dec _ e _ => e
  | .prev _ e _ => e
  | .next _ e _ => e
  | .output _ e => e
  | .input _ e => e
  | .loopOpen _ e => e
  | .loopClose _ e => e
  | .funcOpen _ e => e
  | .funcClose _ e => e
  | .funcExec _ e => e
  | .loop _ e _ => e
  | .funcDef _ e _ => e

/-- The dynamic type of a node, as compared by reflect.TypeOf in
TokenList.Append: one number per concrete Go struct type. -/
def Node.tag : Node → Nat
  | .preamble .. => 0
  | .postamble .. => 1
  | .inc .. => 2
  | .dec .. => 3
  | .prev .. => 4
  | .next .. => 5
  | .output .. => 6
  | .input .. => 7
  | .loopOpen .. => 8
  | .loopClose .. => 9
  | .funcOpen .. => 10
  | .funcClose .. => 11
  | .funcExec .. => 12
  | .loop .. => 13
  | .funcDef .. => 14

/-- Whether the node implements the Summarizable interface (embeds
BaseCountable): IncNode, DecNode, PrevNode, NextNode. -/
def Node.isCountable : Node → Bool
  | .inc .. | .dec .. | .prev .. | .next .. => true
  | _ => false

/-- BaseCountable.Add(): increment the count in place.  Only ever invoked
on countable nodes; identity elsewhere. -/
def Node.bump : Node → Node
  | .inc s e c => .inc s e (c + 1)
  | .dec s e c => .dec s e (c + 1)
  | .prev s e c => .prev s e (c + 1)
  | .next s e c => .next s e (c + 1)
  | n => n

def Node.isPreamble : Node → Bool
  | .preamble .. => true
  | _ => false

def Node.isInput : Node → Bool
  | .input .. => true
  | _ => false

def Node.isOutput : Node → Bool
  | .output .. => true
  | _ => false

/-- Input or Output node (the two kinds that back-patch the preamble). -/
def Node.isIo (n : Node) : Bool := n.isInput || n.isOutput

/-- Whether the node implements the Encodable interface (has a Code
method).  Exactly the four marker kinds do not. -/
def Node.isEncodable : Node → Bool
  | .loopOpen .. | .loopClose .. | .funcOpen .. | .funcClose .. => false
  | _ => true

/-- TokenList.Append, on the reversed token accumulator (head of the list
is the most recently appended node, i.e. the lastNode field): if the new
node is Summarizable and of the same dynamic type as lastNode, increment
the existing node in place, else append. -/
def appendTok (acc : List Node) (n : Node) : List Node :=
  match acc with
  | last :: rest =>
      if n.isCountable && (last.tag == n.tag) then last.bump :: rest
      else n :: last :: rest
  | [] => [n]

/-- One iteration of the Tokenize character loop: i is the byte offset of
the character, unrecognized characters produce nothing. -/
def tokCharStep (acc : List Node) (i : Nat) (c : Char) : List Node :=
  if c = '+' then appendTok acc (.inc i (i + c.utf8Size) 1)
  else if c = '-' then appendTok acc (.dec i (i + c.utf8Size) 1)
  else if c = '<' then appendTok acc (.prev i (i + c.utf8Size) 1)
  else if c = '>' then appendTok acc (.next i (i + c.utf8Size) 1)
  else if c = '[' then appendTok acc (.loopOpen i (i + c.utf8Size))
  else if c = ']' then appendTok acc (.loopClose i (i + c.utf8Size))
  else if c = '\x7b' then appendTok acc (.funcOpen i (i + c.utf8Size))
  else if c = '\x7d' then appendTok acc (.funcClose i (i + c.utf8Size))
  else if c = '!' then appendTok acc (.funcExec i (i + c.utf8Size))
  else if c = '.' then appendTok acc (.output i (i + c.utf8Size))
  else if c = ',' then appendTok acc (.input i (i + c.utf8Size))
  else acc

/-- The Tokenize character loop over the remaining characters, threading
the byte offset (Go: for i, c := range s). -/
def tokFold (acc : List Node) (i : Nat) : List Char → List Node
  | [] => acc
  | c :: cs => tokFold (tokCharStep acc i c) (i + c.utf8Size) cs

/-- Tokenize: preamble first (span [0,0), flags false), then the
characters, then the postamble, all through Append. -/
def tokList (s : List Char) : List Node :=
  (appendTok (tokFold (appendTok [] (.preamble 0 0 false false)) 0 s) (.postamble 0 0)).reverse

/-- The message built by parseError: Error: msg, Position: pos - end. -/
def mkErrMsg (msg : String) (s e : Nat) : String :=
  "Error: " ++ msg ++ ", Position: " ++ toString s ++ " - " ++ toString e ++ "\n"

/-- Outcome of ParseTokens.  ok carries the ParseList and the consumed
token count; fail is the structured ParseError (faulty node span plus
formatted message); panicked models a Go runtime panic. -/
inductive PResult where
  | ok (nodes : List Node) (skip : Nat)
  | fail (pos endPos : Nat) (msg : String)
  | panicked (msg : String)
  | outOfFuel

/-- Last element of a nonempty list (p2.Nodes[len(p2.Nodes)-1]); the
default is irrelevant, the parser only uses it on nonempty lists. -/
def lastNode (l : List Node) : Node := l.getLast?.getD (.postamble 0 0)

/-- ParseTokens of the extended variant, fuel-indexed.  toks is the
remaining token slice, i the index of its head within this invocation,
acc the ParseList built so far (in order, p.Nodes[0] is its head).
Each branch mirrors one case of the Go type switch, in source order;
the two out-of-range indexings and the failing interface conversion
are modelled as panics. -/
def parseTokensF : Nat → List Node → Nat → Nat → List Node → PResult
  | _, [], _, _, acc => .ok acc 0
  | 0, _ :: _, _, _, _ => .outOfFuel
  | fuel + 1, t :: ts, nesting, i, acc =>
    match t with
    | .loopOpen _ _ =>
        match parseTokensF fuel ts (nesting + 1) 0 [] with
        | .ok ns skip =>
            match ns with
            | [] => .panicked "runtime error: index out of range"
            | n0 :: _ =>
                parseTokensF fuel (ts.drop skip) nesting (i + skip + 1)
                  (acc ++ [.loop n0.pos (lastNode ns).endPos ns])
        | r => r
    | .loopClose s e =>
        if nesting == 0 then .fail s e (mkErrMsg "Loop closed while not open" s e)
        else .ok acc (i + 1)
    | .funcOpen _ _ =>
        match parseTokensF fuel ts (nesting + 1) 0 [] with
        | .ok ns skip =>
            match ns with
            | [] => .panicked "runtime error: index out of range"
            | n0 :: _ =>
                parseTokensF fuel (ts.drop skip) nesting (i + skip + 1)
                  (acc ++ [.funcDef n0.pos (lastNode ns).endPos ns])
        | r => r
    | .funcClose s e =>
        if nesting == 0 then .fail s e (mkErrMsg "Func closed while not open" s e)
        else .ok acc (i + 1)
    | .input s e =>
        match acc with
        | .preamble ps pe _ fm :: rest =>
            parseTokensF fuel ts nesting (i + 1)
              (.preamble ps pe true fm :: rest ++ [.input s e])
        | [] => .panicked "runtime error: index out of range"
        | _ :: _ => .panicked "interface conversion"
    | .output s e =>
        match acc with
        | .preamble ps pe io _ :: rest =>
            parseTokensF fuel ts nesting (i + 1)
              (.preamble ps pe io true :: rest ++ [.output s e])
        | [] => .panicked "runtime error: index out of range"
        | _ :: _ => .panicked "interface conversion"
    | other => parseTokensF fuel ts nesting (i + 1) (acc ++ [other])

/-- ParseTokens at the top level (nesting 0).  A fuel of one more than the
token count always suffices, because every recursive call and every
continuation runs on a strictly shorter slice. -/
def parseToks (toks : List Node) : PResult :=
  parseTokensF (toks.length + 1) toks 0 0 []

/-- Parse: Tokenize then ParseTokens at nesting depth 0. -/
def ParseGo (s : List Char) : PResult := parseToks (tokList s)

/-- The REGISTERS constant emitted into every generated program. -/
def REGISTERS : Int := 100

/-- PreambleNode.Code: package clause, unconditional os import, then the
io import only when UseIO and the fmt import only when UseFmt, then the
main function header with the tape, the closure array and the cursor. -/
def preambleCode (io fm : Bool) : String :=
  "\npackage main\n" ++ "\nimport \"os\"\n"
    ++ (if io then "import \"io\"\n" else "")
    ++ (if fm then "import \"fmt\"\n" else "")
    ++ "\n\nconst REGISTERS = 100\n\nfunc main() \x7b\n\tregisters := make([]byte, REGISTERS)\n\tfunctions := make([]func(), REGISTERS)\n\tcurrentIndex := 0\n\n\t// Suppress unused warnings\n\tregisters[0] = 0\n\tfunctions[0] = nil\n\n\t// Program begin\n"

/-- PostambleNode.Code. -/
def postambleCode : String :=
  "\n\t// Program end\n\t// Flush stdout\n\tos.Stdout.Sync()\n\x7d\n"

/-- PrevNode.Code: wrap to the last register when the cursor is 0, else
subtract the count. -/
def prevCode (c : Nat) : String :=
  "\n\tif currentIndex == 0 \x7b\n\t\tcurrentIndex = REGISTERS-1\n\t\x7d else \x7b\n\t\tcurrentIndex -= "
    ++ toString c ++ "\n\t\x7d\n"

/-- NextNode.Code: advance the cursor by the count modulo REGISTERS. -/
def nextCode (c : Nat) : String :=
  "currentIndex = (currentIndex + " ++ toString c ++ ") % REGISTERS\n"

/-- OutputNode.Code. -/
def outputCode : String :=
  "fmt.Print(string(registers[currentIndex]))\n"

/-- InputNode.Code: scan one character, treating EOF as register 0. -/
def inputCode : String :=
  "\n\t\x7b\n\t\t_, err := fmt.Scanf(\"%c\", &registers[currentIndex])\n\n\t\tif err != nil \x7b\n\t\t\tif err == io.EOF \x7b\n\t\t\t\tregisters[currentIndex] = 0\n\t\t\t\x7d else \x7b\n\t\t\t\tfmt.Println(\"Keyscan Error:\", err)\n\t\t\t\treturn\n\t\t\t\x7d\n\t\t\x7d\n\t\x7d\n"

/-- The loop wrapper header emitted by LoopNode.Code. -/
def loopHeader : String :=
  "\x7b\n\t\tfor ; registers[currentIndex] > 0; \x7b\n"

/-- The loop wrapper footer emitted by LoopNode.Code. -/
def loopFooter : String := "\n\t\t\x7d\n\t\x7d\n"

/-- The deferred-block header emitted by FunctionNode.Code. -/
def funcHeader : String := "\n\tfunctions[currentIndex] = func() \x7b\n"

/-- The deferred-block footer emitted by FunctionNode.Code. -/
def funcFooter : String := "\n\t\x7d\n"

/-- FuncExecNode.Code: guarded invocation of the closure at the cursor. -/
def funcExecCode : String :=
  "\n\tif functions[currentIndex] != nil \x7b\n\t\tfunctions[currentIndex]()\n\t\x7d\n"

mutual

/-- The Code method of each Encodable node kind (markers, which have no
Code method, yield the empty fragment; the parser never emits them). -/
def Node.code : Node → String
  | .preamble _ _ io fm => preambleCode io fm
  | .postamble _ _ => postambleCode
  | .inc _ _ c => "registers[currentIndex] += " ++ toString c ++ "\n"
  | .dec _ _ c => "registers[currentIndex] -= " ++ toString c ++ "\n"
  | .prev _ _ c => prevCode c
  | .next _ _ c => nextCode c
  | .output _ _ => outputCode
  | .input _ _ => inputCode
  | .funcExec _ _ => funcExecCode
  | .loop _ _ children => loopHeader ++ codeChildren children ++ loopFooter
  | .funcDef _ _ children => funcHeader ++ codeChildren children ++ funcFooter
  | .loopOpen _ _ => ""
  | .loopClose _ _ => ""
  | .funcOpen _ _ => ""
  | .funcClose _ _ => ""

/-- The child traversal of LoopNode.Code / FunctionNode.Code: each child
fragment behind three tabs. -/
def codeChildren : List Node → String
  | [] => ""
  | n :: ns => "\t\t\t" ++ Node.code n ++ codeChildren ns

end

/-- Encode: one tab then the fragment, for every Encodable node of the
ParseList, in order. -/
def Encode : List Node → String
  | [] => ""
  | n :: ns => (if n.isEncodable then "\t" ++ Node.code n else "") ++ Encode ns

/-- Whether pat is a leading piece of s. -/
def leadsWith : List Char → List Char → Bool
  | [], _ => true
  | _ :: _, [] => false
  | p :: ps, c :: cs => p == c && leadsWith ps cs

/-- Number of positions of s where pat occurs. -/
def countOccur (pat : List Char) : List Char → Nat
  | [] => 0
  | c :: cs => (if leadsWith pat (c :: cs) then 1 else 0) + countOccur pat cs

/-- Whether pat occurs somewhere in s. -/
def hasSub (pat : List Char) (s : List Char) : Bool :=
  countOccur pat s != 0

mutual

/-- Total number of Loop nodes in a tree, containers included. -/
def loopCount : Node → Nat
  | .loop _ _ children => 1 + loopCountList children
  | .funcDef _ _ children => loopCountList children
  | _ => 0

def loopCountList : List Node → Nat
  | [] => 0
  | n :: ns => loopCount n + loopCountList ns

end

mutual

/-- Total number of Output nodes in a tree. -/
def outputCount : Node → Nat
  | .loop _ _ children => outputCountList children
  | .funcDef _ _ children => outputCountList children
  | .output _ _ => 1
  | _ => 0

def outputCountList : List Node → Nat
  | [] => 0
  | n :: ns => outputCount n + outputCountList ns

end

mutual

/-- Whether a FunctionExec node occurs inside the body of some
FunctionDef node of the tree. -/
def funcExecInBody : Node → Bool
  | .loop _ _ children => funcExecInBodyList children
  | .funcDef _ _ children => hasFuncExecList children || funcExecInBodyList children
  | _ => false

def funcExecInBodyList : List Node → Bool
  | [] => false
  | n :: ns => funcExecInBody n || funcExecInBodyList ns

/-- Whether a FunctionExec node occurs anywhere in the list (top level of
the trees themselves counts). -/
def hasFuncExecList : List Node → Bool
  | [] => false
  | n :: ns => (match n with | .funcExec _ _ => true | _ => false) || hasFuncExecList ns

end

/-- The loop counting lifted to a parse outcome (0 when not ok). -/
def loopCountRes : PResult → Nat
  | .ok ns _ => loopCountList ns
  | _ => 0

/-- The output counting lifted to a parse outcome. -/
def outputCountRes : PResult → Nat
  | .ok ns _ => outputCountList ns
  | _ => 0

/-- The counts carried by the Countable tokens of a token list, in
order (non-countable tokens contribute nothing). -/
def countableCounts : List Node → List Nat
  | [] => []
  | .inc _ _ c :: ns => c :: countableCounts ns
  | .dec _ _ c :: ns => c :: countableCounts ns
  | .prev _ _ c :: ns => c :: countableCounts ns
  | .next _ _ c :: ns => c :: countableCounts ns
  | _ :: ns => countableCounts ns

/-- The characters of a source string. -/
def chars (s : String) : List Char := s.data

/-- The nested-loop example program of the test driver. -/
def prog5 : List Char := chars "+++[>+++[>+++<-]<-]>+."

/-- The parse tree of prog5 (one outer Loop, one inner Loop, one Output). -/
def tree5 : List Node :=
  [.preamble 0 0 false true,
   .inc 0 1 3,
   .loop 4 18
     [.next 4 5 1, .inc 5 6 3,
      .loop 9 15 [.next 9 10 1, .inc 10 11 3, .prev 13 14 1, .dec 14 15 1],
      .prev 16 17 1, .dec 17 18 1],
   .next 19 20 1,
   .inc 20 21 1,
   .output 21 22,
   .postamble 0 0]

/-- The extended-variant function example. -/
def prog8 : List Char := chars "\x7b+!\x7d"

/-- Code-text pattern of one bounded-iteration loop wrapper. -/
def loopWrapperPat : List Char := chars "for ; registers[currentIndex] > 0; \x7b"

/-- Code-text pattern of one output statement. -/
def outputStmtPat : List Char := chars "fmt.Print(string(registers[currentIndex]))"

/-- Code-text pattern of the input-capability import. -/
def ioImportPat : List Char := chars "import \"io\""

/-- Code-text pattern of the output-capability import. -/
def fmtImportPat : List Char := chars "import \"fmt\""

/-- Whether a FunctionExec node occurs inside some definition body of a
parse outcome. -/
def funcExecInBodyRes : PResult → Bool
  | .ok ns _ => funcExecInBodyList ns
  | _ => false

/-- Number of FunctionDef nodes at the top level of a list. -/
def topFuncDefCount : List Node → Nat
  | [] => 0
  | .funcDef _ _ _ :: ns => 1 + topFuncDefCount ns
  | _ :: ns => topFuncDefCount ns

/-- Tokens the parser appends through its final catch-all case: neither
markers nor Input/Output. -/
def plainTok : Node → Bool
  | .loopOpen .. | .loopClose .. | .funcOpen .. | .funcClose .. => false
  | .input .. | .output .. => false
  | _ => true

/-- Head of a node list (p2.Nodes[0]); default irrelevant, used only on
nonempty lists. -/
def headNode (l : List Node) : Node := l.headD (.postamble 0 0)

/-- One of the four run-length-merged operation characters. -/
def isOpChar (c : Char) : Bool :=
  c == '+' || c == '-' || c == '<' || c == '>'

/-- A character the lexer recognizes (everything else is dropped). -/
def isRecognizedChar (c : Char) : Bool :=
  c == '+' || c == '-' || c == '<' || c == '>' || c == '[' || c == ']'
    || c == '\x7b' || c == '\x7d' || c == '!' || c == '.' || c == ','

/-- The Countable token a single operation character produces. -/
def opNodeOf (c : Char) (i n : Nat) : Node :=
  if c = '+' then .inc i (i + 1) n
  else if c = '-' then .dec i (i + 1) n
  else if c = '<' then .prev i (i + 1) n
  else .next i (i + 1) n

/-- Byte width of a character sequence (Go range positions). -/
def charsWidth : List Char → Nat
  | [] => 0
  | c :: cs => c.utf8Size + charsWidth cs

/-- The token any single recognized character produces at offset i
(count 1 for the operation characters). -/
def tokNodeOf (c : Char) (i : Nat) : Node :=
  if isOpChar c then opNodeOf c i 1
  else if c = '[' then .loopOpen i (i + 1)
  else if c = ']' then .loopClose i (i + 1)
  else if c = '\x7b' then .funcOpen i (i + 1)
  else if c = '\x7d' then .funcClose i (i + 1)
  else if c = '!' then .funcExec i (i + 1)
  else if c = '.' then .output i (i + 1)
  else .input i (i + 1)

/-- The dynamic type of the token a recognized character produces. -/
def charTag (c : Char) : Nat := (tokNodeOf c 0).tag

/-- Semantics of the cursor update emitted by PrevNode.Code: when the
cursor is 0 it becomes REGISTERS-1, otherwise the count is subtracted. -/
def prevUpdate (c : Nat) (cur : Int) : Int :=
  if cur = 0 then REGISTERS - 1 else cur - c

/-- Semantics of the cursor update emitted by NextNode.Code: the count is
added and reduced modulo REGISTERS (Go % is the truncated remainder). -/
def nextUpdate (c : Nat) (cur : Int) : Int :=
  (cur + c).tmod REGISTERS

/-! Theorems.  First some reusable lemmas about the parser scan. -/

/-- A token without an explicit type-switch case is appended through the
final catch-all and the scan moves on. -/
theorem step_plain (t : Node) (ts : List Node) (n nesting i : Nat) (acc : List Node)
    (h : plainTok t = true) :
    parseTokensF (n + 1) (t :: ts) nesting i acc
      = parseTokensF n ts nesting (i + 1) (acc ++ [t]) := by
  cases t <;> first
    | rfl
    | simp [plainTok] at h

/-- A slice of catch-all tokens is appended wholesale and the scan runs
off its end, reporting 0 consumed tokens. -/
theorem parse_plain (ts : List Node) : ∀ (g nesting i : Nat) (acc : List Node),
    ts.all plainTok = true →
    parseTokensF (ts.length + g) ts nesting i acc = .ok (acc ++ ts) 0 := by
  induction ts with
  | nil => intro g nesting i acc _; simp [parseTokensF]
  | cons t ts ih =>
      intro g nesting i acc hall
      simp only [List.all_cons, Bool.and_eq_true] at hall
      have hl : (t :: ts).length + g = (ts.length + g) + 1 := by
        simp [List.length_cons]; omega
      rw [hl, step_plain t ts _ nesting i acc hall.1, ih g nesting (i + 1) (acc ++ [t]) hall.2]
      simp

/-- The LoopOpen case when the recursive call returns a nonempty child
list: wrap it in a Loop node and advance by the reported consumption. -/
theorem loopOpen_step_ok (fuel : Nat) (ts : List Node) (nesting i s e skip : Nat)
    (acc : List Node) (n0 : Node) (ns' : List Node)
    (h : parseTokensF fuel ts (nesting + 1) 0 [] = .ok (n0 :: ns') skip) :
    parseTokensF (fuel + 1) (.loopOpen s e :: ts) nesting i acc
      = parseTokensF fuel (ts.drop skip) nesting (i + skip + 1)
          (acc ++ [.loop n0.pos (lastNode (n0 :: ns')).endPos (n0 :: ns')]) := by
  simp only [parseTokensF]
  rw [h]

/-- An unrecognized character produces no token and leaves the lexer
state (including the merge memory) unchanged. -/
theorem tokCharStep_unrecog (acc : List Node) (i : Nat) {c : Char}
    (h : isRecognizedChar c = false) : tokCharStep acc i c = acc := by
  simp only [isRecognizedChar, Bool.or_eq_false_iff, beq_eq_false_iff_ne] at h
  obtain ⟨⟨⟨⟨⟨⟨⟨⟨⟨⟨h1, h2⟩, h3⟩, h4⟩, h5⟩, h6⟩, h7⟩, h8⟩, h9⟩, h10⟩, h11⟩ := h
  simp [tokCharStep, h1, h2, h3, h4, h5, h6, h7, h8, h9, h10, h11]

/-- Folding unrecognized characters and then a character that merges with
the accumulator head bumps that head in place. -/
theorem fold_junk_merge (c : Char) (x : Node) (rest : List Node)
    (hstep : ∀ i, tokCharStep (x :: rest) i c = x.bump :: rest) :
    ∀ junk : List Char, (∀ j ∈ junk, isRecognizedChar j = false) →
    ∀ i, tokFold (x :: rest) i (junk ++ [c]) = x.bump :: rest := by
  intro junk
  induction junk with
  | nil =>
      intro _ i
      simp only [List.nil_append, tokFold, hstep]
  | cons j js ih =>
      intro hj i
      simp only [List.cons_append, tokFold]
      rw [tokCharStep_unrecog _ _ (hj j (by simp))]
      exact ih (fun a ha => hj a (by simp [ha])) _

/-- Tokenizing an operation character, junk, then the same character
again, yields one token of that kind bumped to count 2. -/
theorem tok_run2 (c : Char) (x : Node)
    (h1 : tokCharStep [.preamble 0 0 false false] 0 c = [x, .preamble 0 0 false false])
    (h2 : ∀ i, tokCharStep [x, .preamble 0 0 false false] i c
            = x.bump :: [.preamble 0 0 false false]) :
    ∀ junk : List Char, (∀ j ∈ junk, isRecognizedChar j = false) →
    tokList (c :: (junk ++ [c]))
      = [.preamble 0 0 false false, x.bump, .postamble 0 0] := by
  intro junk hjunk
  show (appendTok (tokFold (appendTok [] (.preamble 0 0 false false)) 0 (c :: (junk ++ [c])))
          (.postamble 0 0)).reverse = _
  rw [show appendTok [] (Node.preamble 0 0 false false)
        = [Node.preamble 0 0 false false] from rfl]
  rw [show tokFold [Node.preamble 0 0 false false] 0 (c :: (junk ++ [c]))
        = tokFold (tokCharStep [Node.preamble 0 0 false false] 0 c) (0 + c.utf8Size)
            (junk ++ [c]) from rfl]
  rw [h1, fold_junk_merge c x [.preamble 0 0 false false] h2 junk hjunk]
  simp [appendTok, Node.isCountable]

/-- C1: the well-bracketed input consisting of an empty loop makes the
parser index an empty child list: Parse crashes instead of succeeding,
so the claimed success on every well-bracketed input fails on the code. -/
theorem claim_C1_well_bracketed_crash :
    ParseGo (chars "[]") = .panicked ("runtime error: index out of range") := rfl

/-- C2: a LoopClose or FuncClose reached by the scan at nesting depth 0
fails immediately with the structured error carrying the marker span and
the formatted message, whatever tokens follow and whatever has been
parsed before (so no further token is scanned); in particular the input
consisting of one closing bracket fails with span starting at offset 0. -/
theorem claim_C2_unmatched_closer :
    (∀ (fuel : Nat) (ts : List Node) (i : Nat) (acc : List Node) (s e : Nat),
      parseTokensF (fuel + 1) (.loopClose s e :: ts) 0 i acc
        = .fail s e (mkErrMsg ("Loop closed while not open") s e))
    ∧ (∀ (fuel : Nat) (ts : List Node) (i : Nat) (acc : List Node) (s e : Nat),
      parseTokensF (fuel + 1) (.funcClose s e :: ts) 0 i acc
        = .fail s e (mkErrMsg ("Func closed while not open") s e))
    ∧ ParseGo (chars "]") = .fail 0 1 (mkErrMsg ("Loop closed while not open") 0 1) :=
  ⟨fun _ _ _ _ _ _ => rfl, fun _ _ _ _ _ _ => rfl, rfl⟩

/-- C4: Parse is not total: the Preamble accesses in the Input/Output
cases and the child-list indexing are reachable.  Inside a bracket pair a
comma or dot makes the parser access element 0 of an empty or
preamble-free list, crashing with index-out-of-range resp. a failed
interface conversion. -/
theorem claim_C4_totality_crash :
    ParseGo (chars "[,]") = .panicked ("runtime error: index out of range")
    ∧ ParseGo (chars "[.]") = .panicked ("runtime error: index out of range")
    ∧ ParseGo (chars "[+.]") = .panicked ("interface conversion") :=
  ⟨rfl, rfl, rfl⟩

/-- C5: counterexample: the example program contains two Loop nodes, not
three: its bracket pairs number two. -/
theorem claim_C5_counterexample :
    loopCountRes (ParseGo prog5) = 2 ∧ loopCountRes (ParseGo prog5) ≠ 3 :=
  ⟨by decide, by decide⟩

/-- C5 amended: parsing the example program succeeds with exactly 2
properly nested Loop nodes (1 inner, 1 outer) and exactly one Output
node, and encoding it produces exactly 2 bounded-iteration loop wrappers
and exactly one output statement. -/
theorem claim_C5_amended :
    ParseGo prog5 = .ok tree5 0
    ∧ loopCountList tree5 = 2
    ∧ outputCountList tree5 = 1
    ∧ countOccur loopWrapperPat (Encode tree5).data = 2
    ∧ countOccur outputStmtPat (Encode tree5).data = 1 :=
  ⟨rfl, by decide, by decide, by decide, by decide⟩

/-- C7: the code emitted for a ShiftPrev node is the conditional that
wraps the cursor to the last tape index exactly when it is 0 before
subtracting the count, and the code emitted for a ShiftNext node advances
the cursor by the count modulo the tape size 100. -/
theorem claim_C7_shift_wraparound :
    ∀ (s e c : Nat) (cur : Int),
      Node.code (.prev s e c) = prevCode c
      ∧ Node.code (.next s e c) = nextCode c
      ∧ (cur = 0 → prevUpdate c cur = REGISTERS - 1)
      ∧ (cur ≠ 0 → prevUpdate c cur = cur - c)
      ∧ nextUpdate c cur = (cur + c).tmod REGISTERS := by
  intro s e c cur
  refine ⟨rfl, rfl, fun h => ?_, fun h => ?_, rfl⟩
  · simp [prevUpdate, h]
  · simp [prevUpdate, h]

/-- C7 witness: the wraparound at cursor 0, the plain subtraction at
cursor 5, and the modulo advance at cursor 99, with count 2. -/
theorem claim_C7_shift_wraparound_witness :
    prevUpdate 2 0 = 99 ∧ prevUpdate 2 5 = 3 ∧ nextUpdate 2 99 = 1 := by
  refine ⟨?_, ?_, ?_⟩
  · have h := (claim_C7_shift_wraparound 0 1 2 0).2.2.1 rfl
    simpa [REGISTERS] using h
  · have h := (claim_C7_shift_wraparound 0 1 2 5).2.2.2.1 (by decide)
    simpa using h
  · have h := (claim_C7_shift_wraparound 0 1 2 99).2.2.2.2
    simpa [REGISTERS] using h

/-- C8: counterexample: parsing the function example puts a FunctionExec
node inside the definition body, because the exec marker lies between
the braces and the parser appends it as an ordinary Encodable child. -/
theorem claim_C8_counterexample :
    funcExecInBodyRes (ParseGo prog8) = true := by decide

/-- C8 amended: parsing the function example yields exactly one top-level
FunctionDef node whose children are exactly an Increment node with count
1 followed by a FunctionExec node. -/
theorem claim_C8_amended :
    ParseGo prog8
      = .ok [.preamble 0 0 false false,
             .funcDef 1 3 [.inc 1 2 1, .funcExec 2 3],
             .postamble 0 0] 0
    ∧ topFuncDefCount [.preamble 0 0 false false,
             .funcDef 1 3 [.inc 1 2 1, .funcExec 2 3],
             .postamble 0 0] = 1 :=
  ⟨rfl, by decide⟩

/-- C9: counterexample: an unmatched closing bracket before the unmatched
opener makes Parse fail, so Parse does not return success on every input
containing an opener with no matching closer. -/
theorem claim_C9_counterexample :
    ParseGo (chars "][") = .fail 0 1 (mkErrMsg ("Loop closed while not open") 0 1) := rfl

/-- C9 amended: when a single unmatched LoopOpen is followed only by
catch-all tokens, the recursive call consumes them all but reports 0
consumed tokens, so the scan appends them a second time: every token
after the opener appears once as a child of the Loop node and once again
in the enclosing sequence; parsing the two-character opener-plus-plus
input shows the duplicated Increment (and Postamble). -/
theorem claim_C9_amended :
    (∀ (s e g i : Nat) (ts acc : List Node),
      ts.all plainTok = true → ts ≠ [] →
      parseTokensF (ts.length + g + 2) (.loopOpen s e :: ts) 0 i acc
        = .ok (acc ++ [.loop (headNode ts).pos (lastNode ts).endPos ts] ++ ts) 0)
    ∧ ParseGo (chars "[+")
        = .ok [.preamble 0 0 false false,
               .loop 1 0 [.inc 1 2 1, .postamble 0 0],
               .inc 1 2 1, .postamble 0 0] 0 := by
  constructor
  · intro s e g i ts acc hall hne
    obtain ⟨n0, ts', rfl⟩ : ∃ n0 ts', ts = n0 :: ts' := by
      cases ts with
      | nil => exact absurd rfl hne
      | cons a b => exact ⟨a, b, rfl⟩
    have hrec : parseTokensF ((n0 :: ts').length + g + 1) (n0 :: ts') (0 + 1) 0 []
        = .ok (n0 :: ts') 0 := by
      simpa using parse_plain (n0 :: ts') (g + 1) (0 + 1) 0 [] hall
    show parseTokensF (((n0 :: ts').length + g + 1) + 1) (.loopOpen s e :: n0 :: ts') 0 i acc = _
    rw [loopOpen_step_ok _ _ _ _ _ _ _ _ _ _ hrec]
    have h2 := parse_plain (n0 :: ts') (g + 1) 0 (i + 0 + 1)
      (acc ++ [.loop n0.pos (lastNode (n0 :: ts')).endPos (n0 :: ts')]) hall
    simpa [headNode] using h2
  · rfl

/-- C9 amended witness: the general duplication statement instantiated at
the token slice of the input with one unmatched opener, an Increment and
the Postamble. -/
theorem claim_C9_amended_witness :
    ([(.inc 1 2 1 : Node), .postamble 0 0].all plainTok = true)
    ∧ parseTokensF 4 [.loopOpen 0 1, .inc 1 2 1, .postamble 0 0] 0 1 [.preamble 0 0 false false]
        = .ok [.preamble 0 0 false false, .loop 1 0 [.inc 1 2 1, .postamble 0 0],
               .inc 1 2 1, .postamble 0 0] 0 :=
  ⟨by decide,
   by simpa [headNode, lastNode] using
     claim_C9_amended.1 0 1 0 1 [.inc 1 2 1, .postamble 0 0] [.preamble 0 0 false false]
       (by decide) (List.cons_ne_nil _ _)⟩

/-- C10: unrecognized characters do not reset the merge memory: two
identical operation characters separated only by unrecognized characters
merge into one Countable token with count 2 (keeping the span of the
first occurrence). -/
theorem claim_C10_junk_merge :
    ∀ (c : Char) (junk : List Char),
      isOpChar c = true → (∀ j ∈ junk, isRecognizedChar j = false) →
      tokList (c :: (junk ++ [c]))
        = [.preamble 0 0 false false, opNodeOf c 0 2, .postamble 0 0] := by
  intro c junk hop hjunk
  have hop' : ((c = '+' ∨ c = '-') ∨ c = '<') ∨ c = '>' := by
    simpa [isOpChar] using hop
  rcases hop' with ((rfl | rfl) | rfl) | rfl
  · exact tok_run2 '+' (.inc 0 1 1) rfl
      (fun i => by simp [tokCharStep, appendTok, Node.isCountable, Node.tag, Node.bump])
      junk hjunk
  · exact tok_run2 '-' (.dec 0 1 1) rfl
      (fun i => by simp [tokCharStep, appendTok, Node.isCountable, Node.tag, Node.bump])
      junk hjunk
  · exact tok_run2 '<' (.prev 0 1 1) rfl
      (fun i => by simp [tokCharStep, appendTok, Node.isCountable, Node.tag, Node.bump])
      junk hjunk
  · exact tok_run2 '>' (.next 0 1 1) rfl
      (fun i => by simp [tokCharStep, appendTok, Node.isCountable, Node.tag, Node.bump])
      junk hjunk

/-- C10 witness: lexing the plus-a-plus input yields a single Increment
token with count 2 even though the two plus characters are not
adjacent. -/
theorem claim_C10_junk_merge_witness :
    isOpChar '+' = true ∧ isRecognizedChar 'a' = false
    ∧ tokList (chars "+a+") = [.preamble 0 0 false false, .inc 0 1 2, .postamble 0 0] :=
  ⟨by decide, by decide,
   by simpa [opNodeOf] using
     claim_C10_junk_merge '+' ['a'] (by decide)
       (by intro j hj; simp at hj; subst hj; decide)⟩

/-! Lexer run-length lemmas for C3. -/

theorem appendTok_noncountable (acc : List Node) (n : Node) (h : n.isCountable = false) :
    appendTok acc n = n :: acc := by
  cases acc with
  | nil => rfl
  | cons a t => simp [appendTok, h]

theorem appendTok_merge {h : Node} (t : List Node) {n : Node}
    (hc : (n.isCountable && (h.tag == n.tag)) = true) :
    appendTok (h :: t) n = h.bump :: t := by
  simp only [appendTok]
  rw [if_pos hc]

theorem appendTok_nomerge {h : Node} (t : List Node) {n : Node}
    (hc : (n.isCountable && (h.tag == n.tag)) = false) :
    appendTok (h :: t) n = n :: h :: t := by
  simp only [appendTok]
  rw [if_neg (by simp [hc])]

theorem appendTok_shape (acc : List Node) (n : Node) :
    appendTok acc n = n :: acc
    ∨ ∃ h t, acc = h :: t ∧ appendTok acc n = h.bump :: t ∧ h.tag = n.tag := by
  cases acc with
  | nil => left; rfl
  | cons a t =>
      by_cases hc : (n.isCountable && (a.tag == n.tag)) = true
      · right
        refine ⟨a, t, rfl, appendTok_merge t hc, ?_⟩
        have := (Bool.and_eq_true _ _).mp hc
        exact beq_iff_eq.mp this.2
      · left
        exact appendTok_nomerge t (by simpa using hc)


theorem bump_tag (h : Node) : (Node.bump h).tag = h.tag := by cases h <;> rfl

theorem tokNodeOf_tag (c : Char) (i : Nat) : (tokNodeOf c i).tag = charTag c := by
  unfold charTag tokNodeOf opNodeOf
  split_ifs <;> rfl

theorem isOpChar_cases {c : Char} (hc : isOpChar c = true) :
    ((c = '+' ∨ c = '-') ∨ c = '<') ∨ c = '>' := by
  simpa [isOpChar] using hc

theorem isRecognizedChar_cases {c : Char} (hc : isRecognizedChar c = true) :
    ((((((((((c = '+' ∨ c = '-') ∨ c = '<') ∨ c = '>') ∨ c = '[') ∨ c = ']')
      ∨ c = '\x7b') ∨ c = '\x7d') ∨ c = '!') ∨ c = '.') ∨ c = ',') := by
  simpa [isRecognizedChar] using hc

theorem op_recognized {c : Char} (hc : isOpChar c = true) : isRecognizedChar c = true := by
  rcases isOpChar_cases hc with ((rfl | rfl) | rfl) | rfl <;> decide

theorem tokCharStep_recog (acc : List Node) (i : Nat) {c : Char}
    (h : isRecognizedChar c = true) :
    tokCharStep acc i c = appendTok acc (tokNodeOf c i) := by
  rcases isRecognizedChar_cases h with
    (((((((((rfl | rfl) | rfl) | rfl) | rfl) | rfl) | rfl) | rfl) | rfl) | rfl) | rfl <;> rfl

theorem tokCharStep_shape (acc : List Node) (i : Nat) (c : Char) :
    tokCharStep acc i c = acc
    ∨ (∃ z, tokCharStep acc i c = z :: acc)
    ∨ (∃ h t, acc = h :: t ∧ tokCharStep acc i c = h.bump :: t) := by
  by_cases hr : isRecognizedChar c = true
  · rw [tokCharStep_recog acc i hr]
    rcases appendTok_shape acc (tokNodeOf c i) with h | ⟨hh, tt, he, hb, _⟩
    · exact Or.inr (Or.inl ⟨_, h⟩)
    · exact Or.inr (Or.inr ⟨hh, tt, he, hb⟩)
  · exact Or.inl (tokCharStep_unrecog acc i (by simpa using hr))

theorem fold_tail (w : List Char) : ∀ (y : Node) (t : List Node) (i : Nat),
    ∃ front y', tokFold (y :: t) i w = front ++ y' :: t := by
  induction w with
  | nil => intro y t i; exact ⟨[], y, rfl⟩
  | cons a w' ih =>
      intro y t i
      rcases tokCharStep_shape (y :: t) i a with h | ⟨z, h⟩ | ⟨hh, tt, he, h⟩
      · rw [show tokFold (y :: t) i (a :: w')
              = tokFold (tokCharStep (y :: t) i a) (i + a.utf8Size) w' from rfl, h]
        exact ih y t _
      · rw [show tokFold (y :: t) i (a :: w')
              = tokFold (tokCharStep (y :: t) i a) (i + a.utf8Size) w' from rfl, h]
        obtain ⟨front, z', hf⟩ := ih z (y :: t) _
        exact ⟨front ++ [z'], y, by rw [hf]; simp⟩
      · obtain ⟨rfl, rfl⟩ : y = hh ∧ t = tt := by
          injection he with h1 h2; exact ⟨h1, h2⟩
        rw [show tokFold (y :: t) i (a :: w')
              = tokFold (tokCharStep (y :: t) i a) (i + a.utf8Size) w' from rfl, h]
        exact ih y.bump t _

theorem charTag_ne {d c : Char} (hd : isRecognizedChar d = true)
    (hc : isRecognizedChar c = true) (hne : d ≠ c) : charTag d ≠ charTag c := by
  rcases isRecognizedChar_cases hd with
    (((((((((rfl | rfl) | rfl) | rfl) | rfl) | rfl) | rfl) | rfl) | rfl) | rfl) | rfl <;>
  rcases isRecognizedChar_cases hc with
    (((((((((rfl | rfl) | rfl) | rfl) | rfl) | rfl) | rfl) | rfl) | rfl) | rfl) | rfl <;>
  first
    | exact absurd rfl hne
    | decide

theorem step_head (acc : List Node) (i : Nat) {d : Char} (hd : isRecognizedChar d = true) :
    ∃ h rest, tokCharStep acc i d = h :: rest ∧ h.tag = charTag d := by
  rw [tokCharStep_recog acc i hd]
  rcases appendTok_shape acc (tokNodeOf d i) with h | ⟨hh, tt, he, hb, ht⟩
  · exact ⟨tokNodeOf d i, acc, h, tokNodeOf_tag d i⟩
  · subst he
    exact ⟨hh.bump, tt, hb, by rw [bump_tag, ht, tokNodeOf_tag]⟩

theorem fold_head (u : List Char) {d : Char} (hd : isRecognizedChar d = true) :
    ∀ (acc : List Node) (i : Nat),
      ∃ h rest, tokFold acc i (u ++ [d]) = h :: rest ∧ h.tag = charTag d := by
  induction u with
  | nil =>
      intro acc i
      obtain ⟨h, rest, hs, ht⟩ := step_head acc i hd
      refine ⟨h, rest, ?_, ht⟩
      rw [show tokFold acc i ([] ++ [d]) = tokCharStep acc i d from rfl]
      exact hs
  | cons a u' ih =>
      intro acc i
      rw [show tokFold acc i ((a :: u') ++ [d])
            = tokFold (tokCharStep acc i a) (i + a.utf8Size) (u' ++ [d]) from rfl]
      exact ih _ _

theorem opNodeOf_bump {c : Char} (hc : isOpChar c = true) (p k : Nat) :
    (opNodeOf c p k).bump = opNodeOf c p (k + 1) := by
  rcases isOpChar_cases hc with ((rfl | rfl) | rfl) | rfl <;> rfl

theorem opNodeOf_countable {c : Char} (hc : isOpChar c = true) (p k : Nat) :
    (opNodeOf c p k).isCountable = true := by
  rcases isOpChar_cases hc with ((rfl | rfl) | rfl) | rfl <;> rfl

theorem opNodeOf_tag {c : Char} (hc : isOpChar c = true) (p k : Nat) :
    (opNodeOf c p k).tag = charTag c := by
  rcases isOpChar_cases hc with ((rfl | rfl) | rfl) | rfl <;> rfl

theorem tokNodeOf_op {c : Char} (hc : isOpChar c = true) (i : Nat) :
    tokNodeOf c i = opNodeOf c i 1 := by
  simp [tokNodeOf, hc]

theorem tokCharStep_op (acc : List Node) (i : Nat) {c : Char} (hc : isOpChar c = true) :
    tokCharStep acc i c = appendTok acc (opNodeOf c i 1) := by
  rw [tokCharStep_recog acc i (op_recognized hc), tokNodeOf_op hc]

theorem fold_absorb {c : Char} (hc : isOpChar c = true) :
    ∀ (m p k : Nat) (t : List Node) (i : Nat),
      tokFold (opNodeOf c p k :: t) i (List.replicate m c) = opNodeOf c p (k + m) :: t := by
  intro m
  induction m with
  | zero => intro p k t i; simp [tokFold]
  | succ m ih =>
      intro p k t i
      rw [List.replicate_succ]
      rw [show tokFold (opNodeOf c p k :: t) i (c :: List.replicate m c)
            = tokFold (tokCharStep (opNodeOf c p k :: t) i c) (i + c.utf8Size)
                (List.replicate m c) from rfl]
      rw [tokCharStep_op _ _ hc]
      have hcond : ((opNodeOf c i 1).isCountable
          && ((opNodeOf c p k).tag == (opNodeOf c i 1).tag)) = true := by
        rw [opNodeOf_countable hc, opNodeOf_tag hc, opNodeOf_tag hc]
        simp
      rw [appendTok_merge t hcond, opNodeOf_bump hc, ih]
      have : k + 1 + m = k + (m + 1) := by omega
      rw [this]

theorem fold_replicate_fresh {c : Char} (hc : isOpChar c = true) {h : Node}
    (hne : h.tag ≠ charTag c) (n : Nat) (hn : 1 ≤ n) (t : List Node) (i : Nat) :
    tokFold (h :: t) i (List.replicate n c) = opNodeOf c i n :: h :: t := by
  obtain ⟨m, rfl⟩ : ∃ m, n = m + 1 := ⟨n - 1, by omega⟩
  rw [List.replicate_succ]
  rw [show tokFold (h :: t) i (c :: List.replicate m c)
        = tokFold (tokCharStep (h :: t) i c) (i + c.utf8Size) (List.replicate m c) from rfl]
  rw [tokCharStep_op _ _ hc]
  have hcond : ((opNodeOf c i 1).isCountable && (h.tag == (opNodeOf c i 1).tag)) = false := by
    rw [opNodeOf_tag hc]
    simp [hne]
  rw [appendTok_nomerge _ hcond]
  rw [fold_absorb hc m i 1 (h :: t) _]
  rw [show 1 + m = m + 1 from by omega]

theorem tokFold_append (u : List Char) : ∀ (acc : List Node) (i : Nat) (w : List Char),
    tokFold acc i (u ++ w) = tokFold (tokFold acc i u) (i + charsWidth u) w := by
  induction u with
  | nil => intro acc i w; simp [tokFold, charsWidth]
  | cons a u' ih =>
      intro acc i w
      rw [show ((a :: u') ++ w) = a :: (u' ++ w) from rfl]
      rw [show tokFold acc i (a :: (u' ++ w))
            = tokFold (tokCharStep acc i a) (i + a.utf8Size) (u' ++ w) from rfl]
      rw [ih]
      rw [show tokFold acc i (a :: u')
            = tokFold (tokCharStep acc i a) (i + a.utf8Size) u' from rfl]
      congr 1
      simp [charsWidth]
      omega

theorem opTag_ne_preamble {c : Char} (hc : isOpChar c = true) :
    (Node.preamble 0 0 false false).tag ≠ charTag c := by
  rcases isOpChar_cases hc with ((rfl | rfl) | rfl) | rfl <;> decide



theorem tokNodeOf_countable (c : Char) (i : Nat) :
    (tokNodeOf c i).isCountable = (tokNodeOf c 0).isCountable := by
  unfold tokNodeOf opNodeOf
  split_ifs <;> rfl

theorem fold_after_run (v : List Char) (X : Node) (S : List Node) (P : Nat)
    (hfirst : v = [] ∨ ∃ d v', v = d :: v' ∧ isRecognizedChar d = true ∧
        ((tokNodeOf d 0).isCountable && (X.tag == (tokNodeOf d 0).tag)) = false) :
    ∃ back, (appendTok (tokFold (X :: S) P v) (.postamble 0 0)).reverse
      = S.reverse ++ X :: back := by
  rcases hfirst with rfl | ⟨d, v', rfl, hd, hcond⟩
  · refine ⟨[.postamble 0 0], ?_⟩
    rw [show tokFold (X :: S) P [] = X :: S from rfl, appendTok_noncountable _ (.postamble 0 0) rfl]
    simp
  · rw [show tokFold (X :: S) P (d :: v')
        = tokFold (tokCharStep (X :: S) P d) (P + d.utf8Size) v' from rfl]
    rw [tokCharStep_recog _ _ hd]
    have hcond' : ((tokNodeOf d P).isCountable && (X.tag == (tokNodeOf d P).tag)) = false := by
      rw [tokNodeOf_countable d P, tokNodeOf_tag d P]
      rw [tokNodeOf_tag d 0] at hcond
      exact hcond
    rw [appendTok_nomerge _ hcond']
    obtain ⟨front, y', hft⟩ := fold_tail v' (tokNodeOf d P) (X :: S) (P + d.utf8Size)
    rw [hft, appendTok_noncountable _ (.postamble 0 0) rfl]
    refine ⟨y' :: (front.reverse ++ [.postamble 0 0]), ?_⟩
    simp [List.reverse_append, List.reverse_cons, List.append_assoc]

/-- C3 amended: merging is by concrete operation kind only, and a maximal
run of N identical operation characters lexes to exactly one Countable
node carrying count N and the offset of the first character of the run,
provided the characters adjacent to the run are recognized characters
(or the run touches the ends of the input): the tokens before the node
are exactly those of the prefix, untouched by the run.  The plus-minus-plus
input lexes to three count-1 nodes, and three open brackets lex to three
distinct LoopOpen markers.  (Runs of the same character separated only by
unrecognized characters fuse instead, see the counterexample and C10.) -/
theorem claim_C3_amended :
    (∀ (u v : List Char) (c : Char) (n : Nat),
      isOpChar c = true → 1 ≤ n →
      (u = [] ∨ ∃ u' d, u = u' ++ [d] ∧ isRecognizedChar d = true ∧ d ≠ c) →
      (v = [] ∨ ∃ d v', v = d :: v' ∧ isRecognizedChar d = true ∧ d ≠ c) →
      ∃ back, tokList (u ++ List.replicate n c ++ v)
        = (tokFold [.preamble 0 0 false false] 0 u).reverse
            ++ opNodeOf c (charsWidth u) n :: back)
    ∧ tokList (chars "+-+")
        = [.preamble 0 0 false false, .inc 0 1 1, .dec 1 2 1, .inc 2 3 1, .postamble 0 0]
    ∧ tokList (chars "[[[")
        = [.preamble 0 0 false false, .loopOpen 0 1, .loopOpen 1 2, .loopOpen 2 3,
           .postamble 0 0] := by
  refine ⟨?_, rfl, rfl⟩
  intro u v c n hc hn hu hv
  have hrc : isRecognizedChar c = true := op_recognized hc
  obtain ⟨h0, rest0, hSu, htag⟩ :
      ∃ h0 rest0, tokFold [(.preamble 0 0 false false : Node)] 0 u = h0 :: rest0
        ∧ h0.tag ≠ charTag c := by
    rcases hu with rfl | ⟨u', d, rfl, hd, hdc⟩
    · exact ⟨.preamble 0 0 false false, [], rfl, opTag_ne_preamble hc⟩
    · obtain ⟨h, rest, hf, ht⟩ := fold_head u' hd [.preamble 0 0 false false] 0
      exact ⟨h, rest, hf, by rw [ht]; exact charTag_ne hd hrc hdc⟩
  have key : tokList (u ++ List.replicate n c ++ v)
      = (appendTok (tokFold (opNodeOf c (0 + charsWidth u) n :: h0 :: rest0)
          ((0 + charsWidth u) + charsWidth (List.replicate n c)) v)
          (.postamble 0 0)).reverse := by
    show (appendTok (tokFold (appendTok [] (.preamble 0 0 false false)) 0
            (u ++ List.replicate n c ++ v)) (.postamble 0 0)).reverse = _
    rw [show appendTok [] (Node.preamble 0 0 false false)
          = [Node.preamble 0 0 false false] from rfl]
    rw [List.append_assoc, tokFold_append u, hSu, tokFold_append (List.replicate n c)]
    rw [fold_replicate_fresh hc htag n hn rest0 (0 + charsWidth u)]
  have hfirst : v = [] ∨ ∃ d v', v = d :: v' ∧ isRecognizedChar d = true ∧
      ((tokNodeOf d 0).isCountable
        && ((opNodeOf c (0 + charsWidth u) n).tag == (tokNodeOf d 0).tag)) = false := by
    rcases hv with rfl | ⟨d, v', rfl, hd, hdc⟩
    · exact Or.inl rfl
    · refine Or.inr ⟨d, v', rfl, hd, ?_⟩
      rw [opNodeOf_tag hc, tokNodeOf_tag d 0]
      have hne : charTag c ≠ charTag d := charTag_ne hrc hd (fun h => hdc h.symm)
      simp [beq_eq_false_iff_ne.mpr hne]
  obtain ⟨back, hb⟩ := fold_after_run v (opNodeOf c (0 + charsWidth u) n) (h0 :: rest0)
      ((0 + charsWidth u) + charsWidth (List.replicate n c)) hfirst
  refine ⟨back, ?_⟩
  rw [key, hb, hSu]
  simp [Nat.zero_add]

/-- C3 witness: the pure run of three plus characters lexes to a single
Increment token with count 3 at offset 0. -/
theorem claim_C3_amended_witness :
    isOpChar '+' = true ∧ (1 : Nat) ≤ 3
    ∧ ∃ back, tokList ([] ++ List.replicate 3 '+' ++ [])
        = (tokFold [.preamble 0 0 false false] 0 []).reverse
            ++ opNodeOf '+' (charsWidth []) 3 :: back :=
  ⟨by decide, by decide,
   claim_C3_amended.1 [] [] '+' 3 (by decide) (by decide) (Or.inl rfl) (Or.inl rfl)⟩

/-- C3: counterexample: the input plus-a-plus has two maximal runs of one
plus character each, so the claim predicts two Countable nodes with
count 1; the lexer instead produces a single node with count 2, because
the unrecognized letter does not reset the merge memory. -/
theorem claim_C3_counterexample :
    countableCounts (tokList (chars "+a+")) = [2]
    ∧ countableCounts (tokList (chars "+a+")) ≠ [1, 1] :=
  ⟨by decide, by decide⟩


/-! Parser and lexer lemmas for C6: evolution of the preamble capability flags. -/

theorem bump_isPreamble (h : Node) : (Node.bump h).isPreamble = h.isPreamble := by
  cases h <;> rfl

theorem bump_isInput (h : Node) : (Node.bump h).isInput = h.isInput := by
  cases h <;> rfl

theorem bump_isOutput (h : Node) : (Node.bump h).isOutput = h.isOutput := by
  cases h <;> rfl

theorem plain_not_io {t : Node} (h : plainTok t = true) : t.isIo = false := by
  cases t <;> first
    | rfl
    | simp [plainTok] at h

theorem tag_output {h : Node} (ht : h.tag = (6 : Nat)) : h.isOutput = true := by
  cases h <;> first
    | rfl
    | simp [Node.tag] at ht

theorem tag_input {h : Node} (ht : h.tag = (7 : Nat)) : h.isInput = true := by
  cases h <;> first
    | rfl
    | simp [Node.tag] at ht

theorem tokNodeOf_isPreamble (c : Char) (i : Nat) : (tokNodeOf c i).isPreamble = false := by
  unfold tokNodeOf opNodeOf
  split_ifs <;> rfl

theorem tokNodeOf_not_input {c : Char} (i : Nat) (hr : isRecognizedChar c = true)
    (hne : c ≠ ',') : (tokNodeOf c i).isInput = false := by
  rcases isRecognizedChar_cases hr with
    (((((((((rfl | rfl) | rfl) | rfl) | rfl) | rfl) | rfl) | rfl) | rfl) | rfl) | rfl <;>
    first
      | exact absurd rfl hne
      | rfl

theorem tokNodeOf_not_output {c : Char} (i : Nat) (hr : isRecognizedChar c = true)
    (hne : c ≠ '.') : (tokNodeOf c i).isOutput = false := by
  rcases isRecognizedChar_cases hr with
    (((((((((rfl | rfl) | rfl) | rfl) | rfl) | rfl) | rfl) | rfl) | rfl) | rfl) | rfl <;>
    first
      | exact absurd rfl hne
      | rfl

theorem tokCharStep_cases (acc : List Node) (i : Nat) (c : Char) :
    (isRecognizedChar c = false ∧ tokCharStep acc i c = acc)
    ∨ (isRecognizedChar c = true ∧ tokCharStep acc i c = tokNodeOf c i :: acc)
    ∨ (isRecognizedChar c = true ∧ ∃ h t, acc = h :: t ∧ tokCharStep acc i c = h.bump :: t
        ∧ h.tag = (tokNodeOf c i).tag) := by
  by_cases hr : isRecognizedChar c = true
  · rw [tokCharStep_recog acc i hr]
    rcases appendTok_shape acc (tokNodeOf c i) with h | ⟨hh, tt, he, hb, ht⟩
    · exact Or.inr (Or.inl ⟨hr, h⟩)
    · exact Or.inr (Or.inr ⟨hr, hh, tt, he, hb, ht⟩)
  · have hr' : isRecognizedChar c = false := by simpa using hr
    exact Or.inl ⟨hr', tokCharStep_unrecog acc i hr'⟩

theorem step_loopClose (n : Nat) (ts : List Node) (nesting i s e : Nat) (acc : List Node) :
    parseTokensF (n + 1) (.loopClose s e :: ts) nesting i acc
      = if nesting == 0 then .fail s e (mkErrMsg ("Loop closed while not open") s e)
        else .ok acc (i + 1) := rfl

theorem step_funcClose (n : Nat) (ts : List Node) (nesting i s e : Nat) (acc : List Node) :
    parseTokensF (n + 1) (.funcClose s e :: ts) nesting i acc
      = if nesting == 0 then .fail s e (mkErrMsg ("Func closed while not open") s e)
        else .ok acc (i + 1) := rfl

theorem step_input_pre (n : Nat) (ts : List Node) (nesting i s e ps pe : Nat)
    (io fm : Bool) (rest : List Node) :
    parseTokensF (n + 1) (.input s e :: ts) nesting i (.preamble ps pe io fm :: rest)
      = parseTokensF n ts nesting (i + 1)
          (.preamble ps pe true fm :: rest ++ [.input s e]) := rfl

theorem step_output_pre (n : Nat) (ts : List Node) (nesting i s e ps pe : Nat)
    (io fm : Bool) (rest : List Node) :
    parseTokensF (n + 1) (.output s e :: ts) nesting i (.preamble ps pe io fm :: rest)
      = parseTokensF n ts nesting (i + 1)
          (.preamble ps pe io true :: rest ++ [.output s e]) := rfl

theorem step_input_nil (n : Nat) (ts : List Node) (nesting i s e : Nat) :
    parseTokensF (n + 1) (.input s e :: ts) nesting i []
      = .panicked ("runtime error: index out of range") := rfl

theorem step_output_nil (n : Nat) (ts : List Node) (nesting i s e : Nat) :
    parseTokensF (n + 1) (.output s e :: ts) nesting i []
      = .panicked ("runtime error: index out of range") := rfl

theorem step_input_nonpre (n : Nat) (ts : List Node) (nesting i s e : Nat)
    (h : Node) (t : List Node) (hh : h.isPreamble = false) :
    parseTokensF (n + 1) (.input s e :: ts) nesting i (h :: t)
      = .panicked ("interface conversion") := by
  cases h <;> first
    | rfl
    | simp [Node.isPreamble] at hh

theorem step_output_nonpre (n : Nat) (ts : List Node) (nesting i s e : Nat)
    (h : Node) (t : List Node) (hh : h.isPreamble = false) :
    parseTokensF (n + 1) (.output s e :: ts) nesting i (h :: t)
      = .panicked ("interface conversion") := by
  cases h <;> first
    | rfl
    | simp [Node.isPreamble] at hh

theorem funcOpen_step_ok (fuel : Nat) (ts : List Node) (nesting i s e skip : Nat)
    (acc : List Node) (n0 : Node) (ns' : List Node)
    (h : parseTokensF fuel ts (nesting + 1) 0 [] = .ok (n0 :: ns') skip) :
    parseTokensF (fuel + 1) (.funcOpen s e :: ts) nesting i acc
      = parseTokensF fuel (ts.drop skip) nesting (i + skip + 1)
          (acc ++ [.funcDef n0.pos (lastNode (n0 :: ns')).endPos (n0 :: ns')]) := by
  simp only [parseTokensF]
  rw [h]

theorem loopOpen_ok_inv {n : Nat} {ts : List Node} {nesting i s e : Nat}
    {acc res : List Node} {skip : Nat}
    (h : parseTokensF (n + 1) (.loopOpen s e :: ts) nesting i acc = .ok res skip) :
    ∃ n0 ns' skip', parseTokensF n ts (nesting + 1) 0 [] = .ok (n0 :: ns') skip'
      ∧ parseTokensF n (ts.drop skip') nesting (i + skip' + 1)
          (acc ++ [.loop n0.pos (lastNode (n0 :: ns')).endPos (n0 :: ns')]) = .ok res skip := by
  cases hrec : parseTokensF n ts (nesting + 1) 0 [] with
  | ok ns skip' =>
      cases ns with
      | nil =>
          rw [show parseTokensF (n + 1) (.loopOpen s e :: ts) nesting i acc
                = .panicked ("runtime error: index out of range") by
              simp only [parseTokensF]; rw [hrec]] at h
          exact PResult.noConfusion h
      | cons n0 ns' =>
          rw [loopOpen_step_ok _ _ _ _ _ _ _ _ _ _ hrec] at h
          exact ⟨n0, ns', skip', rfl, h⟩
  | fail p q m =>
      rw [show parseTokensF (n + 1) (.loopOpen s e :: ts) nesting i acc = .fail p q m by
          simp only [parseTokensF]; rw [hrec]] at h
      exact PResult.noConfusion h
  | panicked m =>
      rw [show parseTokensF (n + 1) (.loopOpen s e :: ts) nesting i acc = .panicked m by
          simp only [parseTokensF]; rw [hrec]] at h
      exact PResult.noConfusion h
  | outOfFuel =>
      rw [show parseTokensF (n + 1) (.loopOpen s e :: ts) nesting i acc = .outOfFuel by
          simp only [parseTokensF]; rw [hrec]] at h
      exact PResult.noConfusion h

theorem funcOpen_ok_inv {n : Nat} {ts : List Node} {nesting i s e : Nat}
    {acc res : List Node} {skip : Nat}
    (h : parseTokensF (n + 1) (.funcOpen s e :: ts) nesting i acc = .ok res skip) :
    ∃ n0 ns' skip', parseTokensF n ts (nesting + 1) 0 [] = .ok (n0 :: ns') skip'
      ∧ parseTokensF n (ts.drop skip') nesting (i + skip' + 1)
          (acc ++ [.funcDef n0.pos (lastNode (n0 :: ns')).endPos (n0 :: ns')]) = .ok res skip := by
  cases hrec : parseTokensF n ts (nesting + 1) 0 [] with
  | ok ns skip' =>
      cases ns with
      | nil =>
          rw [show parseTokensF (n + 1) (.funcOpen s e :: ts) nesting i acc
                = .panicked ("runtime error: index out of range") by
              simp only [parseTokensF]; rw [hrec]] at h
          exact PResult.noConfusion h
      | cons n0 ns' =>
          rw [funcOpen_step_ok _ _ _ _ _ _ _ _ _ _ hrec] at h
          exact ⟨n0, ns', skip', rfl, h⟩
  | fail p q m =>
      rw [show parseTokensF (n + 1) (.funcOpen s e :: ts) nesting i acc = .fail p q m by
          simp only [parseTokensF]; rw [hrec]] at h
      exact PResult.noConfusion h
  | panicked m =>
      rw [show parseTokensF (n + 1) (.funcOpen s e :: ts) nesting i acc = .panicked m by
          simp only [parseTokensF]; rw [hrec]] at h
      exact PResult.noConfusion h
  | outOfFuel =>
      rw [show parseTokensF (n + 1) (.funcOpen s e :: ts) nesting i acc = .outOfFuel by
          simp only [parseTokensF]; rw [hrec]] at h
      exact PResult.noConfusion h

theorem flags_evolution :
    ∀ (fuel : Nat) (toks : List Node) (nesting i : Nat) (ps pe : Nat) (io fm : Bool)
      (rest res : List Node) (skip : Nat),
      parseTokensF fuel toks nesting i (.preamble ps pe io fm :: rest) = .ok res skip →
      ∃ io' fm' rest', res = .preamble ps pe io' fm' :: rest'
        ∧ (io = true → io' = true) ∧ (fm = true → fm' = true)
        ∧ ((∀ t ∈ toks, t.isInput = false) → io' = io)
        ∧ ((∀ t ∈ toks, t.isOutput = false) → fm' = fm) := by
  intro fuel
  induction fuel with
  | zero =>
      intro toks nesting i ps pe io fm rest res skip h
      cases toks with
      | nil =>
          injection h with h1 h2
          exact ⟨io, fm, rest, h1.symm, id, id, fun _ => rfl, fun _ => rfl⟩
      | cons t ts => exact PResult.noConfusion h
  | succ n ih =>
      intro toks nesting i ps pe io fm rest res skip h
      cases toks with
      | nil =>
          injection h with h1 h2
          exact ⟨io, fm, rest, h1.symm, id, id, fun _ => rfl, fun _ => rfl⟩
      | cons t ts =>
          by_cases hp : plainTok t = true
          · rw [step_plain t ts n nesting i (.preamble ps pe io fm :: rest) hp,
                List.cons_append] at h
            obtain ⟨io', fm', rest', hres, hioT, hfmT, hioP, hfmP⟩ :=
              ih ts nesting (i + 1) ps pe io fm (rest ++ [t]) res skip h
            refine ⟨io', fm', rest', hres, hioT, hfmT, ?_, ?_⟩
            · intro hni
              exact hioP fun x hx => hni x (List.mem_cons_of_mem _ hx)
            · intro hno
              exact hfmP fun x hx => hno x (List.mem_cons_of_mem _ hx)
          · cases t <;> try exact absurd rfl hp
            next s e =>
              rw [step_output_pre] at h
              obtain ⟨io', fm', rest', hres, hioT, hfmT, hioP, hfmP⟩ :=
                ih ts nesting (i + 1) ps pe io true (rest ++ [Node.output s e]) res skip h
              refine ⟨io', fm', rest', hres, hioT, fun _ => hfmT rfl, ?_, ?_⟩
              · intro hni
                exact hioP fun x hx => hni x (List.mem_cons_of_mem _ hx)
              · intro hno
                exact absurd (hno (.output s e) (List.mem_cons_self _ _)) (by simp [Node.isOutput])
            next s e =>
              rw [step_input_pre] at h
              obtain ⟨io', fm', rest', hres, hioT, hfmT, hioP, hfmP⟩ :=
                ih ts nesting (i + 1) ps pe true fm (rest ++ [Node.input s e]) res skip h
              refine ⟨io', fm', rest', hres, fun _ => hioT rfl, hfmT, ?_, ?_⟩
              · intro hni
                exact absurd (hni (.input s e) (List.mem_cons_self _ _)) (by simp [Node.isInput])
              · intro hno
                exact hfmP fun x hx => hno x (List.mem_cons_of_mem _ hx)
            next s e =>
              obtain ⟨n0, ns', skip', hrec, hcont⟩ := loopOpen_ok_inv h
              rw [List.cons_append] at hcont
              obtain ⟨io', fm', rest', hres, hioT, hfmT, hioP, hfmP⟩ :=
                ih _ _ _ _ _ _ _ _ _ _ hcont
              refine ⟨io', fm', rest', hres, hioT, hfmT, ?_, ?_⟩
              · intro hni
                exact hioP fun x hx =>
                  hni x (List.mem_cons_of_mem _ (List.mem_of_mem_drop hx))
              · intro hno
                exact hfmP fun x hx =>
                  hno x (List.mem_cons_of_mem _ (List.mem_of_mem_drop hx))
            next s e =>
              rw [step_loopClose] at h
              by_cases hn : (nesting == 0) = true
              · rw [if_pos hn] at h
                exact PResult.noConfusion h
              · rw [if_neg hn] at h
                injection h with h1 h2
                exact ⟨io, fm, rest, h1.symm, id, id, fun _ => rfl, fun _ => rfl⟩
            next s e =>
              obtain ⟨n0, ns', skip', hrec, hcont⟩ := funcOpen_ok_inv h
              rw [List.cons_append] at hcont
              obtain ⟨io', fm', rest', hres, hioT, hfmT, hioP, hfmP⟩ :=
                ih _ _ _ _ _ _ _ _ _ _ hcont
              refine ⟨io', fm', rest', hres, hioT, hfmT, ?_, ?_⟩
              · intro hni
                exact hioP fun x hx =>
                  hni x (List.mem_cons_of_mem _ (List.mem_of_mem_drop hx))
              · intro hno
                exact hfmP fun x hx =>
                  hno x (List.mem_cons_of_mem _ (List.mem_of_mem_drop hx))
            next s e =>
              rw [step_funcClose] at h
              by_cases hn : (nesting == 0) = true
              · rw [if_pos hn] at h
                exact PResult.noConfusion h
              · rw [if_neg hn] at h
                injection h with h1 h2
                exact ⟨io, fm, rest, h1.symm, id, id, fun _ => rfl, fun _ => rfl⟩

theorem output_isIo {t : Node} (h : t.isOutput = true) : t.isIo = true := by
  simp [Node.isIo, h]

theorem plain_not_output {t : Node} (hp : plainTok t = true) : t.isOutput = false := by
  have := plain_not_io hp
  simp [Node.isIo, Bool.or_eq_false_iff] at this
  exact this.2

theorem depth_no_io :
    ∀ (fuel : Nat) (toks : List Node) (nesting i : Nat) (acc res : List Node) (skip : Nat),
      (∀ t ∈ toks, t.isPreamble = false) →
      (∀ h, acc.head? = some h → h.isPreamble = false) →
      parseTokensF fuel toks nesting i acc = .ok res skip →
      (skip = 0 ∨ i < skip)
      ∧ (∀ t ∈ (if skip = 0 then toks else toks.take (skip - i)), t.isIo = false) := by
  intro fuel
  induction fuel with
  | zero =>
      intro toks nesting i acc res skip hpre hacc h
      cases toks with
      | nil =>
          injection h with h1 h2
          refine ⟨Or.inl h2.symm, ?_⟩
          intro x hx
          rw [if_pos h2.symm] at hx
          simp at hx
      | cons t ts => exact PResult.noConfusion h
  | succ n ih =>
      intro toks nesting i acc res skip hpre hacc h
      cases toks with
      | nil =>
          injection h with h1 h2
          refine ⟨Or.inl h2.symm, ?_⟩
          intro x hx
          rw [if_pos h2.symm] at hx
          simp at hx
      | cons t ts =>
          by_cases hp : plainTok t = true
          · rw [step_plain t ts n nesting i acc hp] at h
            have hacc' : ∀ x, (acc ++ [t]).head? = some x → x.isPreamble = false := by
              intro x hx
              cases acc with
              | nil =>
                  simp at hx
                  subst hx
                  exact hpre t (List.mem_cons_self _ _)
              | cons a as =>
                  simp at hx
                  subst hx
                  exact hacc a rfl
            obtain ⟨h1, h2⟩ := ih ts nesting (i + 1) (acc ++ [t]) res skip
              (fun x hx => hpre x (List.mem_cons_of_mem _ hx)) hacc' h
            refine ⟨by omega, ?_⟩
            intro x hx
            by_cases hs : skip = 0
            · rw [if_pos hs] at hx
              rcases List.mem_cons.mp hx with rfl | hx'
              · exact plain_not_io hp
              · exact h2 x (by rw [if_pos hs]; exact hx')
            · rw [if_neg hs] at hx
              have hlt : i + 1 < skip := by rcases h1 with h1 | h1 <;> omega
              have harith : skip - i = (skip - (i + 1)) + 1 := by omega
              rw [harith, List.take_succ_cons] at hx
              rcases List.mem_cons.mp hx with rfl | hx'
              · exact plain_not_io hp
              · exact h2 x (by rw [if_neg hs]; exact hx')
          · cases t <;> try exact absurd rfl hp
            -- output
            next s e =>
              cases acc with
              | nil => rw [step_output_nil] at h; exact PResult.noConfusion h
              | cons a as =>
                  rw [step_output_nonpre n ts nesting i s e a as (hacc a rfl)] at h
                  exact PResult.noConfusion h
            -- input
            next s e =>
              cases acc with
              | nil => rw [step_input_nil] at h; exact PResult.noConfusion h
              | cons a as =>
                  rw [step_input_nonpre n ts nesting i s e a as (hacc a rfl)] at h
                  exact PResult.noConfusion h
            -- loopOpen
            next s e =>
              obtain ⟨n0, ns', skip', hrec, hcont⟩ := loopOpen_ok_inv h
              have hpre_ts : ∀ x ∈ ts, x.isPreamble = false :=
                fun x hx => hpre x (List.mem_cons_of_mem _ hx)
              obtain ⟨hr1, hr2⟩ := ih ts (nesting + 1) 0 [] (n0 :: ns') skip'
                hpre_ts (fun x hx => by simp at hx) hrec
              have hacc' : ∀ x,
                  (acc ++ [Node.loop n0.pos (lastNode (n0 :: ns')).endPos (n0 :: ns')]).head?
                    = some x → x.isPreamble = false := by
                intro x hx
                cases acc with
                | nil => simp at hx; subst hx; rfl
                | cons a as => simp at hx; subst hx; exact hacc a rfl
              obtain ⟨hc1, hc2⟩ := ih (ts.drop skip') nesting (i + skip' + 1) _ res skip
                (fun x hx => hpre_ts x (List.mem_of_mem_drop hx)) hacc' hcont
              refine ⟨by rcases hc1 with hc1 | hc1 <;> omega, ?_⟩
              intro x hx
              by_cases hs : skip = 0
              · rw [if_pos hs] at hx
                rcases List.mem_cons.mp hx with rfl | hx'
                · rfl
                · by_cases hs' : skip' = 0
                  · exact hr2 x (by rw [if_pos hs']; exact hx')
                  · rw [← List.take_append_drop skip' ts] at hx'
                    rcases List.mem_append.mp hx' with hx'' | hx''
                    · exact hr2 x (by rw [if_neg hs']; simpa using hx'')
                    · exact hc2 x (by rw [if_pos hs]; exact hx'')
              · rw [if_neg hs] at hx
                have hlt : i + skip' + 1 < skip := by rcases hc1 with hc1 | hc1 <;> omega
                have harith : skip - i = (skip - i - 1) + 1 := by omega
                rw [harith, List.take_succ_cons] at hx
                rcases List.mem_cons.mp hx with rfl | hx'
                · rfl
                · by_cases hs' : skip' = 0
                  · exact hr2 x (by rw [if_pos hs']; exact List.mem_of_mem_take hx')
                  · have harith2 : skip - i - 1 = skip' + (skip - (i + skip' + 1)) := by omega
                    rw [harith2, List.take_add] at hx'
                    rcases List.mem_append.mp hx' with hx'' | hx''
                    · exact hr2 x (by rw [if_neg hs']; simpa using hx'')
                    · exact hc2 x (by rw [if_neg hs]; exact hx'')
            -- loopClose
            next s e =>
              rw [step_loopClose] at h
              by_cases hn : (nesting == 0) = true
              · rw [if_pos hn] at h; exact PResult.noConfusion h
              · rw [if_neg hn] at h
                injection h with h1 h2
                refine ⟨Or.inr (by omega), ?_⟩
                intro x hx
                rw [if_neg (by omega)] at hx
                have : skip - i = 1 := by omega
                rw [this] at hx
                simp at hx
                subst hx
                rfl
            -- funcOpen
            next s e =>
              obtain ⟨n0, ns', skip', hrec, hcont⟩ := funcOpen_ok_inv h
              have hpre_ts : ∀ x ∈ ts, x.isPreamble = false :=
                fun x hx => hpre x (List.mem_cons_of_mem _ hx)
              obtain ⟨hr1, hr2⟩ := ih ts (nesting + 1) 0 [] (n0 :: ns') skip'
                hpre_ts (fun x hx => by simp at hx) hrec
              have hacc' : ∀ x,
                  (acc ++ [Node.funcDef n0.pos (lastNode (n0 :: ns')).endPos (n0 :: ns')]).head?
                    = some x → x.isPreamble = false := by
                intro x hx
                cases acc with
                | nil => simp at hx; subst hx; rfl
                | cons a as => simp at hx; subst hx; exact hacc a rfl
              obtain ⟨hc1, hc2⟩ := ih (ts.drop skip') nesting (i + skip' + 1) _ res skip
                (fun x hx => hpre_ts x (List.mem_of_mem_drop hx)) hacc' hcont
              refine ⟨by rcases hc1 with hc1 | hc1 <;> omega, ?_⟩
              intro x hx
              by_cases hs : skip = 0
              · rw [if_pos hs] at hx
                rcases List.mem_cons.mp hx with rfl | hx'
                · rfl
                · by_cases hs' : skip' = 0
                  · exact hr2 x (by rw [if_pos hs']; exact hx')
                  · rw [← List.take_append_drop skip' ts] at hx'
                    rcases List.mem_append.mp hx' with hx'' | hx''
                    · exact hr2 x (by rw [if_neg hs']; simpa using hx'')
                    · exact hc2 x (by rw [if_pos hs]; exact hx'')
              · rw [if_neg hs] at hx
                have hlt : i + skip' + 1 < skip := by rcases hc1 with hc1 | hc1 <;> omega
                have harith : skip - i = (skip - i - 1) + 1 := by omega
                rw [harith, List.take_succ_cons] at hx
                rcases List.mem_cons.mp hx with rfl | hx'
                · rfl
                · by_cases hs' : skip' = 0
                  · exact hr2 x (by rw [if_pos hs']; exact List.mem_of_mem_take hx')
                  · have harith2 : skip - i - 1 = skip' + (skip - (i + skip' + 1)) := by omega
                    rw [harith2, List.take_add] at hx'
                    rcases List.mem_append.mp hx' with hx'' | hx''
                    · exact hr2 x (by rw [if_neg hs']; simpa using hx'')
                    · exact hc2 x (by rw [if_neg hs]; exact hx'')
            -- funcClose
            next s e =>
              rw [step_funcClose] at h
              by_cases hn : (nesting == 0) = true
              · rw [if_pos hn] at h; exact PResult.noConfusion h
              · rw [if_neg hn] at h
                injection h with h1 h2
                refine ⟨Or.inr (by omega), ?_⟩
                intro x hx
                rw [if_neg (by omega)] at hx
                have : skip - i = 1 := by omega
                rw [this] at hx
                simp at hx
                subst hx
                rfl

theorem top_output_sets_flag :
    ∀ (fuel : Nat) (toks : List Node) (i ps pe : Nat) (io fm : Bool)
      (rest res : List Node) (skip : Nat),
      (∀ t ∈ toks, t.isPreamble = false) →
      (∃ t, t ∈ toks ∧ t.isOutput = true) →
      parseTokensF fuel toks 0 i (.preamble ps pe io fm :: rest) = .ok res skip →
      ∃ io' rest', res = .preamble ps pe io' true :: rest' := by
  intro fuel
  induction fuel with
  | zero =>
      intro toks i ps pe io fm rest res skip hpre hex h
      cases toks with
      | nil => obtain ⟨t, ht, _⟩ := hex; simp at ht
      | cons t ts => exact PResult.noConfusion h
  | succ n ih =>
      intro toks i ps pe io fm rest res skip hpre hex h
      cases toks with
      | nil => obtain ⟨t, ht, _⟩ := hex; simp at ht
      | cons t ts =>
          by_cases hp : plainTok t = true
          · rw [step_plain t ts n 0 i (.preamble ps pe io fm :: rest) hp,
                List.cons_append] at h
            obtain ⟨x, hx, hxo⟩ := hex
            rcases List.mem_cons.mp hx with rfl | hx'
            · exact absurd hxo (by rw [plain_not_output hp]; simp)
            · exact ih ts (i + 1) ps pe io fm (rest ++ [t]) res skip
                (fun y hy => hpre y (List.mem_cons_of_mem _ hy)) ⟨x, hx', hxo⟩ h
          · cases t <;> try exact absurd rfl hp
            -- output
            next s e =>
              rw [step_output_pre] at h
              obtain ⟨io', fm', rest', hres, _, hfmT, _, _⟩ :=
                flags_evolution n ts 0 (i + 1) ps pe io true (rest ++ [Node.output s e])
                  res skip h
              exact ⟨io', rest', by rw [hres, hfmT rfl]⟩
            -- input
            next s e =>
              rw [step_input_pre] at h
              obtain ⟨x, hx, hxo⟩ := hex
              rcases List.mem_cons.mp hx with rfl | hx'
              · simp [Node.isOutput] at hxo
              · exact ih ts (i + 1) ps pe true fm (rest ++ [Node.input s e]) res skip
                  (fun y hy => hpre y (List.mem_cons_of_mem _ hy)) ⟨x, hx', hxo⟩ h
            -- loopOpen
            next s e =>
              obtain ⟨n0, ns', skip', hrec, hcont⟩ := loopOpen_ok_inv h
              have hpre_ts : ∀ y ∈ ts, y.isPreamble = false :=
                fun y hy => hpre y (List.mem_cons_of_mem _ hy)
              obtain ⟨x, hx, hxo⟩ := hex
              rcases List.mem_cons.mp hx with rfl | hx'
              · simp [Node.isOutput] at hxo
              · obtain ⟨hr1, hr2⟩ := depth_no_io n ts 1 0 [] (n0 :: ns') skip'
                  hpre_ts (fun y hy => by simp at hy) hrec
                by_cases hs' : skip' = 0
                · exact absurd (hr2 x (by rw [if_pos hs']; exact hx'))
                    (by rw [output_isIo hxo]; simp)
                · rw [← List.take_append_drop skip' ts] at hx'
                  rcases List.mem_append.mp hx' with hx'' | hx''
                  · exact absurd (hr2 x (by rw [if_neg hs']; simpa using hx''))
                      (by rw [output_isIo hxo]; simp)
                  · rw [List.cons_append] at hcont
                    exact ih (ts.drop skip') (i + skip' + 1) ps pe io fm _ res skip
                      (fun y hy => hpre_ts y (List.mem_of_mem_drop hy)) ⟨x, hx'', hxo⟩ hcont
            -- loopClose
            next s e =>
              rw [step_loopClose, if_pos (by rfl)] at h
              exact PResult.noConfusion h
            -- funcOpen
            next s e =>
              obtain ⟨n0, ns', skip', hrec, hcont⟩ := funcOpen_ok_inv h
              have hpre_ts : ∀ y ∈ ts, y.isPreamble = false :=
                fun y hy => hpre y (List.mem_cons_of_mem _ hy)
              obtain ⟨x, hx, hxo⟩ := hex
              rcases List.mem_cons.mp hx with rfl | hx'
              · simp [Node.isOutput] at hxo
              · obtain ⟨hr1, hr2⟩ := depth_no_io n ts 1 0 [] (n0 :: ns') skip'
                  hpre_ts (fun y hy => by simp at hy) hrec
                by_cases hs' : skip' = 0
                · exact absurd (hr2 x (by rw [if_pos hs']; exact hx'))
                    (by rw [output_isIo hxo]; simp)
                · rw [← List.take_append_drop skip' ts] at hx'
                  rcases List.mem_append.mp hx' with hx'' | hx''
                  · exact absurd (hr2 x (by rw [if_neg hs']; simpa using hx''))
                      (by rw [output_isIo hxo]; simp)
                  · rw [List.cons_append] at hcont
                    exact ih (ts.drop skip') (i + skip' + 1) ps pe io fm _ res skip
                      (fun y hy => hpre_ts y (List.mem_of_mem_drop hy)) ⟨x, hx'', hxo⟩ hcont
            -- funcClose
            next s e =>
              rw [step_funcClose, if_pos (by rfl)] at h
              exact PResult.noConfusion h

theorem fold_pre_structure :
    ∀ (s : List Char) (front : List Node) (i : Nat),
      (∀ t ∈ front, t.isPreamble = false) →
      ∃ front', tokFold (front ++ [.preamble 0 0 false false]) i s
        = front' ++ [.preamble 0 0 false false]
        ∧ (∀ t ∈ front', t.isPreamble = false) := by
  intro s
  induction s with
  | nil => intro front i h; exact ⟨front, rfl, h⟩
  | cons c cs ih =>
      intro front i h
      rw [show tokFold (front ++ [Node.preamble 0 0 false false]) i (c :: cs)
            = tokFold (tokCharStep (front ++ [Node.preamble 0 0 false false]) i c)
                (i + c.utf8Size) cs from rfl]
      rcases tokCharStep_cases (front ++ [.preamble 0 0 false false]) i c with
        ⟨_, hst⟩ | ⟨hr, hst⟩ | ⟨hr, hh, tt, he, hst, htag⟩
      · rw [hst]
        exact ih front _ h
      · rw [hst]
        exact ih (tokNodeOf c i :: front) _ (fun x hx => by
          rcases List.mem_cons.mp hx with rfl | hx'
          exacts [tokNodeOf_isPreamble c i, h x hx'])
      · rw [hst]
        cases front with
        | nil =>
            obtain ⟨rfl, rfl⟩ : Node.preamble 0 0 false false = hh ∧ ([] : List Node) = tt := by
              injection he with h1 h2
              exact ⟨h1, h2⟩
            exact ih [] _ (by simp)
        | cons f0 fr =>
            obtain ⟨rfl, rfl⟩ : f0 = hh ∧ fr ++ [Node.preamble 0 0 false false] = tt := by
              injection he with h1 h2
              exact ⟨h1, h2⟩
            refine ih (f0.bump :: fr) _ ?_
            intro x hx
            rcases List.mem_cons.mp hx with rfl | hx'
            · rw [bump_isPreamble]
              exact h f0 (List.mem_cons_self _ _)
            · exact h x (List.mem_cons_of_mem _ hx')

theorem tokList_shape (s : List Char) :
    ∃ rest, tokList s = .preamble 0 0 false false :: rest
      ∧ (∀ t ∈ rest, t.isPreamble = false) := by
  obtain ⟨front', hf, hpf⟩ := fold_pre_structure s [] 0 (by simp)
  show ∃ rest, (appendTok (tokFold (appendTok [] (.preamble 0 0 false false)) 0 s)
        (.postamble 0 0)).reverse = _ ∧ _
  rw [show appendTok [] (Node.preamble 0 0 false false)
        = [] ++ [Node.preamble 0 0 false false] from rfl, hf]
  rw [appendTok_noncountable _ (.postamble 0 0) rfl]
  refine ⟨front'.reverse ++ [.postamble 0 0], ?_, ?_⟩
  · simp
  · intro x hx
    rcases List.mem_append.mp hx with hx' | hx'
    · exact hpf x (List.mem_reverse.mp hx')
    · rw [List.mem_singleton.mp hx']
      rfl

theorem fold_no_input :
    ∀ (s : List Char) (acc : List Node) (i : Nat),
      (¬ ',' ∈ s) → (∀ t ∈ acc, t.isInput = false) →
      ∀ t ∈ tokFold acc i s, t.isInput = false := by
  intro s
  induction s with
  | nil => intro acc i _ hacc; exact hacc
  | cons c cs ih =>
      intro acc i hs hacc
      have hc : c ≠ ',' := fun hcc => hs (by rw [hcc]; exact List.mem_cons_self _ _)
      have hcs : ¬ ',' ∈ cs := fun hcc => hs (List.mem_cons_of_mem _ hcc)
      rw [show tokFold acc i (c :: cs)
            = tokFold (tokCharStep acc i c) (i + c.utf8Size) cs from rfl]
      apply ih _ _ hcs
      rcases tokCharStep_cases acc i c with ⟨_, hst⟩ | ⟨hr, hst⟩ | ⟨hr, hh, tt, he, hst, _⟩
      · rw [hst]; exact hacc
      · rw [hst]
        intro x hx
        rcases List.mem_cons.mp hx with rfl | hx'
        · exact tokNodeOf_not_input i hr hc
        · exact hacc x hx'
      · rw [hst]
        subst he
        intro x hx
        rcases List.mem_cons.mp hx with rfl | hx'
        · rw [bump_isInput]
          exact hacc hh (List.mem_cons_self _ _)
        · exact hacc x (List.mem_cons_of_mem _ hx')

theorem fold_no_output :
    ∀ (s : List Char) (acc : List Node) (i : Nat),
      (¬ '.' ∈ s) → (∀ t ∈ acc, t.isOutput = false) →
      ∀ t ∈ tokFold acc i s, t.isOutput = false := by
  intro s
  induction s with
  | nil => intro acc i _ hacc; exact hacc
  | cons c cs ih =>
      intro acc i hs hacc
      have hc : c ≠ '.' := fun hcc => hs (by rw [hcc]; exact List.mem_cons_self _ _)
      have hcs : ¬ '.' ∈ cs := fun hcc => hs (List.mem_cons_of_mem _ hcc)
      rw [show tokFold acc i (c :: cs)
            = tokFold (tokCharStep acc i c) (i + c.utf8Size) cs from rfl]
      apply ih _ _ hcs
      rcases tokCharStep_cases acc i c with ⟨_, hst⟩ | ⟨hr, hst⟩ | ⟨hr, hh, tt, he, hst, _⟩
      · rw [hst]; exact hacc
      · rw [hst]
        intro x hx
        rcases List.mem_cons.mp hx with rfl | hx'
        · exact tokNodeOf_not_output i hr hc
        · exact hacc x hx'
      · rw [hst]
        subst he
        intro x hx
        rcases List.mem_cons.mp hx with rfl | hx'
        · rw [bump_isOutput]
          exact hacc hh (List.mem_cons_self _ _)
        · exact hacc x (List.mem_cons_of_mem _ hx')

theorem fold_has_output :
    ∀ (s : List Char) (acc : List Node) (i : Nat),
      ('.' ∈ s ∨ ∃ t ∈ acc, t.isOutput = true) →
      ∃ t ∈ tokFold acc i s, t.isOutput = true := by
  intro s
  induction s with
  | nil =>
      intro acc i h
      rcases h with h | h
      · simp at h
      · exact h
  | cons c cs ih =>
      intro acc i h
      rw [show tokFold acc i (c :: cs)
            = tokFold (tokCharStep acc i c) (i + c.utf8Size) cs from rfl]
      apply ih
      rcases h with hdot | ⟨x, hx, hxo⟩
      · rcases List.mem_cons.mp hdot with heq | hdot'
        · -- c = '.'
          subst heq
          rcases tokCharStep_cases acc i '.' with ⟨hr, _⟩ | ⟨_, hst⟩ | ⟨_, hh, tt, he, hst, htag⟩
          · exact absurd hr (by decide)
          · right
            rw [hst]
            exact ⟨tokNodeOf '.' i, List.mem_cons_self _ _, rfl⟩
          · right
            rw [hst]
            refine ⟨hh.bump, List.mem_cons_self _ _, ?_⟩
            rw [bump_isOutput]
            exact tag_output htag
        · exact Or.inl hdot'
      · right
        rcases tokCharStep_cases acc i c with ⟨_, hst⟩ | ⟨_, hst⟩ | ⟨_, hh, tt, he, hst, _⟩
        · rw [hst]; exact ⟨x, hx, hxo⟩
        · rw [hst]; exact ⟨x, List.mem_cons_of_mem _ hx, hxo⟩
        · rw [hst]
          subst he
          rcases List.mem_cons.mp hx with heq | hx'
          · refine ⟨hh.bump, List.mem_cons_self _ _, ?_⟩
            rw [bump_isOutput, ← heq]
            exact hxo
          · exact ⟨x, List.mem_cons_of_mem _ hx', hxo⟩

theorem tok_has_output (s : List Char) (h : '.' ∈ s) :
    ∃ t ∈ tokList s, t.isOutput = true := by
  obtain ⟨t, ht, hto⟩ := fold_has_output s (appendTok [] (.preamble 0 0 false false)) 0
    (Or.inl h)
  refine ⟨t, ?_, hto⟩
  show t ∈ (appendTok (tokFold (appendTok [] (.preamble 0 0 false false)) 0 s)
      (.postamble 0 0)).reverse
  rw [appendTok_noncountable _ (.postamble 0 0) rfl, List.mem_reverse]
  exact List.mem_cons_of_mem _ ht

theorem tok_no_input_all (s : List Char) (h : ¬ ',' ∈ s) :
    ∀ t ∈ tokList s, t.isInput = false := by
  intro t ht
  rw [show tokList s = (appendTok (tokFold (appendTok [] (.preamble 0 0 false false)) 0 s)
        (.postamble 0 0)).reverse from rfl] at ht
  rw [appendTok_noncountable _ (.postamble 0 0) rfl, List.mem_reverse] at ht
  rcases List.mem_cons.mp ht with rfl | ht'
  · rfl
  · refine fold_no_input s _ 0 h ?_ t ht'
    intro x hx
    rw [show appendTok [] (Node.preamble 0 0 false false)
          = [Node.preamble 0 0 false false] from rfl] at hx
    rw [List.mem_singleton.mp hx]
    rfl

theorem tok_no_output_all (s : List Char) (h : ¬ '.' ∈ s) :
    ∀ t ∈ tokList s, t.isOutput = false := by
  intro t ht
  rw [show tokList s = (appendTok (tokFold (appendTok [] (.preamble 0 0 false false)) 0 s)
        (.postamble 0 0)).reverse from rfl] at ht
  rw [appendTok_noncountable _ (.postamble 0 0) rfl, List.mem_reverse] at ht
  rcases List.mem_cons.mp ht with rfl | ht'
  · rfl
  · refine fold_no_output s _ 0 h ?_ t ht'
    intro x hx
    rw [show appendTok [] (Node.preamble 0 0 false false)
          = [Node.preamble 0 0 false false] from rfl] at hx
    rw [List.mem_singleton.mp hx]
    rfl

/-- C6: for every successfully parsed program: when the source contains
neither comma nor dot, both preamble capability flags stay false, so the
generated header omits both the io and the fmt import; when it contains a
dot but no comma, the output flag is set and the input flag is not, so
the header includes exactly the fmt import.  The last four conjuncts pin
the flag-to-import correspondence of the emitted header text. -/
theorem claim_C6_capability_imports :
    ∀ (s : List Char) (res : List Node) (skip : Nat),
      ParseGo s = .ok res skip →
      ((¬ ',' ∈ s ∧ ¬ '.' ∈ s) → ∃ rest, res = .preamble 0 0 false false :: rest)
      ∧ (('.' ∈ s ∧ ¬ ',' ∈ s) → ∃ rest, res = .preamble 0 0 false true :: rest)
      ∧ hasSub ioImportPat (preambleCode false false).data = false
      ∧ hasSub fmtImportPat (preambleCode false false).data = false
      ∧ hasSub fmtImportPat (preambleCode false true).data = true
      ∧ hasSub ioImportPat (preambleCode false true).data = false := by
  intro s res skip h
  obtain ⟨rest0, hshape, hpf⟩ := tokList_shape s
  rw [show ParseGo s = parseTokensF ((tokList s).length + 1) (tokList s) 0 0 [] from rfl,
      hshape] at h
  rw [show (Node.preamble 0 0 false false :: rest0).length + 1 = (rest0.length + 1) + 1
        from by simp] at h
  rw [step_plain (.preamble 0 0 false false) rest0 (rest0.length + 1) 0 0 [] rfl] at h
  rw [show ([] : List Node) ++ [Node.preamble 0 0 false false]
        = Node.preamble 0 0 false false :: ([] : List Node) from rfl] at h
  refine ⟨?_, ?_, by decide, by decide, by decide, by decide⟩
  · rintro ⟨hnc, hnd⟩
    have hni : ∀ t ∈ rest0, t.isInput = false := fun t ht =>
      tok_no_input_all s hnc t (by rw [hshape]; exact List.mem_cons_of_mem _ ht)
    have hno : ∀ t ∈ rest0, t.isOutput = false := fun t ht =>
      tok_no_output_all s hnd t (by rw [hshape]; exact List.mem_cons_of_mem _ ht)
    obtain ⟨io', fm', rest', hres, _, _, hioP, hfmP⟩ :=
      flags_evolution (rest0.length + 1) rest0 0 (0 + 1) 0 0 false false [] res skip h
    rw [hioP hni, hfmP hno] at hres
    exact ⟨rest', hres⟩
  · rintro ⟨hd, hnc⟩
    have hni : ∀ t ∈ rest0, t.isInput = false := fun t ht =>
      tok_no_input_all s hnc t (by rw [hshape]; exact List.mem_cons_of_mem _ ht)
    obtain ⟨tout, htout, htout_o⟩ := tok_has_output s hd
    have htout' : tout ∈ rest0 := by
      rw [hshape] at htout
      rcases List.mem_cons.mp htout with heq | h'
      · rw [heq] at htout_o
        simp [Node.isPreamble, Node.isOutput] at htout_o
      · exact h'
    obtain ⟨io1, rest1, hres1⟩ := top_output_sets_flag (rest0.length + 1) rest0 (0 + 1)
      0 0 false false [] res skip hpf ⟨tout, htout', htout_o⟩ h
    obtain ⟨io2, fm2, rest2, hres2, _, _, hioP, _⟩ :=
      flags_evolution (rest0.length + 1) rest0 0 (0 + 1) 0 0 false false [] res skip h
    rw [hres1] at hres2
    injection hres2 with hh ht
    injection hh with _ _ hio _
    rw [hres1, hio, hioP hni]
    exact ⟨rest1, rfl⟩

/-- C6 witness: the one-dot program parses with the output flag set and
the input flag clear. -/
theorem claim_C6_capability_imports_witness :
    ParseGo (chars ".") = .ok [.preamble 0 0 false true, .output 0 1, .postamble 0 0] 0
    ∧ ('.' ∈ chars "." ∧ ¬ ',' ∈ chars ".")
    ∧ ∃ rest, [Node.preamble 0 0 false true, Node.output 0 1, Node.postamble 0 0]
        = Node.preamble 0 0 false true :: rest :=
  ⟨rfl, by decide,
   (claim_C6_capability_imports (chars ".")
      [.preamble 0 0 false true, .output 0 1, .postamble 0 0] 0 rfl).2.1 (by decide)⟩

end Clusterfuck
